import Mathlib

/-!
Verification development for the funding-rate arbitrage pipeline.

The definitions below are a shallow embedding of the pipeline's core
subsystems, translated from the Python sources:

* `calculate_FR_diff_v3.py` — the time-aligned differential engine
  (`calculate_diff_for_symbol`), the incremental range planner
  (`calculate_processing_ranges`) and the persistence adapter
  (`insert_fr_diff_with_nulls`);
* `calculate_FR_return_list_v2.py` — the SQL-window based return
  aggregator (`calculate_returns_sql_optimized`,
  `process_batch_data_sql_optimized`);
* `ranking_engine.py` / `strategy_ranking_v2.py` — the configurable
  multi-factor ranking engine.

Modelling conventions:

* timestamps are hour indices (`ℕ`, hours since an epoch); a calendar
  date is the hour index divided by 24;
* funding rates and scores are exact rationals (`ℚ`); a floating-point
  NaN is modelled as `Option.none` (type `FVal := Option ℚ`), matching
  pandas' NA propagation;
* pandas `sort_values` over one key column is modelled two ways: by
  `List.insertionSort`, a deterministic comparison sort adequate for the
  order, length and multiset properties proved below, and — where the
  relative order of equal keys matters — by a direct transcription of the
  sort the program actually runs, numpy's `aquicksort` argsort
  (`npysort/quicksort.c.src`, the default `kind='quicksort'`) under
  pandas' `nargsort(ascending=False)` double-reversal wrapping, which is
  not stable;
* SQL result sets / pandas frames are lists of rows in query order.
-/

/-! ### Part A: the time-aligned differential engine (calculate_FR_diff_v3.py)

`calculate_diff_for_symbol` receives all funding-rate observations for one
symbol (every exchange), builds an hourly pivot (`pivot_table` with
`aggfunc='first'`), reindexes it over the complete hourly range
`date_range(min, max, freq='h')` and computes the NULL-aware differential
for each configured exchange pair. -/

/-- One `funding_rate_history` row for a fixed symbol: observation hour,
exchange name and funding rate. -/
structure Obs where
  ts : ℕ
  exch : String
  rate : ℚ
deriving DecidableEq, Repr

/-- Pivot-cell lookup: the first observation of exchange `e` at hour `t`
(the `aggfunc='first'` of `pivot_table`); `none` when the cell is empty
(reindexed hour with no observation, a NaN in the frame). -/
def pivotLookup (data : List Obs) (e : String) (t : ℕ) : Option ℚ :=
  (data.find? (fun o => o.exch == e && o.ts == t)).map Obs.rate

/-- Whether exchange `e` occurs in the pivot's columns, i.e. the symbol has
at least one observation on `e`. -/
def hasExchange (data : List Obs) (e : String) : Bool :=
  data.any (fun o => o.exch == e)

/-- Earliest observed hour in the data (`symbol_data['timestamp_utc'].min()`). -/
def tsMin (data : List Obs) : ℕ :=
  ((data.map Obs.ts).min?).getD 0

/-- Latest observed hour in the data (`symbol_data['timestamp_utc'].max()`). -/
def tsMax (data : List Obs) : ℕ :=
  ((data.map Obs.ts).max?).getD 0

/-- The complete hourly timeline `pd.date_range(min, max, freq='h')`. -/
def timeline (data : List Obs) : List ℕ :=
  List.range' (tsMin data) (tsMax data + 1 - tsMin data)

/-- The per-hour NULL-aware differential rule of the engine:
both rates present → `a - b`; only `a` → `a`; only `b` → `-b`;
neither → null. -/
def diffRule : Option ℚ → Option ℚ → Option ℚ
  | some a, some b => some (a - b)
  | some a, none => some a
  | none, some b => some (-b)
  | none, none => none

/-- One in-memory `Differential` row produced by the engine. -/
structure DiffRow where
  ts : ℕ
  exch_a : String
  exch_b : String
  rate_a : Option ℚ
  rate_b : Option ℚ
  diff : Option ℚ
deriving DecidableEq, Repr

/-- Differential computation for one exchange pair of one symbol: when either
exchange has no column in the pivot the pair is skipped (`continue` in the
source); otherwise one row per hour of the full timeline. -/
def calc_pair_diff (data : List Obs) (a b : String) : List DiffRow :=
  if hasExchange data a && hasExchange data b then
    (timeline data).map (fun t =>
      { ts := t
        exch_a := a
        exch_b := b
        rate_a := pivotLookup data a t
        rate_b := pivotLookup data b t
        diff := diffRule (pivotLookup data a t) (pivotLookup data b t) })
  else []

/-- `calculate_diff_for_symbol`: all configured exchange pairs for one
symbol's data (empty input produces an empty frame). -/
def calculate_diff_for_symbol (data : List Obs) (pairs : List (String × String)) :
    List DiffRow :=
  if data.isEmpty then []
  else (pairs.map (fun p => calc_pair_diff data p.1 p.2)).flatten

/-- Every emitted row's diff is the null-aware rule applied to its legs. -/
theorem diff_of_mem_calculate (data : List Obs) (pairs : List (String × String)) :
    ∀ r ∈ calculate_diff_for_symbol data pairs,
      r.diff = diffRule r.rate_a r.rate_b := by
  intro r hr
  unfold calculate_diff_for_symbol at hr
  split at hr
  · exact absurd hr (List.not_mem_nil r)
  · obtain ⟨l, hl, hrl⟩ := List.mem_flatten.1 hr
    obtain ⟨p, _, rfl⟩ := List.mem_map.1 hl
    unfold calc_pair_diff at hrl
    split at hrl
    · obtain ⟨t, _, rfl⟩ := List.mem_map.1 hrl
      rfl
    · exact absurd hrl (List.not_mem_nil r)

/-- Claim C1: every row of the reconstructed timeline carries the null-aware
differential of its two legs: both present → `rate_a - rate_b`; only
`rate_a` → `rate_a`; only `rate_b` → `-rate_b`; neither → null. -/
theorem C1_diff_rule (data : List Obs) (pairs : List (String × String)) :
    (∀ r ∈ calculate_diff_for_symbol data pairs,
        r.diff = diffRule r.rate_a r.rate_b) ∧
    (∀ x y : ℚ, diffRule (some x) (some y) = some (x - y)) ∧
    (∀ x : ℚ, diffRule (some x) none = some x) ∧
    (∀ y : ℚ, diffRule none (some y) = some (-y)) ∧
    diffRule none none = none :=
  ⟨diff_of_mem_calculate data pairs, fun x y => rfl, fun x => rfl, fun y => rfl, rfl⟩

/-- Witness for C1 at a concrete input: two observations at hour 3, the
produced row (rates 5 and 2, diff 3) satisfies the rule. -/
theorem C1_diff_rule_witness :
    (DiffRow.mk 3 "binance" "bybit" (some 5) (some 2) (some 3)).diff
      = diffRule (some 5) (some 2) := by
  refine (C1_diff_rule [⟨3, "binance", 5⟩, ⟨3, "bybit", 2⟩]
    [("binance", "bybit")]).1 _ ?_
  simp [calculate_diff_for_symbol, calc_pair_diff, hasExchange, timeline,
    tsMin, tsMax, pivotLookup, List.range', diffRule, List.find?]
  norm_num

/-- Claim C2 fails as stated: when one exchange of the pair has no
observation at all, the source skips the pair (`continue`) and emits no
rows, although the earliest/latest observed timestamp across either
exchange exists (here hour 5, observed on `bybit` only): the timeline
contains zero rows for hour 5 instead of exactly one. -/
theorem C2_counterexample :
    (calc_pair_diff [⟨5, "bybit", 1⟩] "binance" "bybit").countP
        (fun r => r.ts == 5) = 0
    ∧ tsMin [⟨5, "bybit", 1⟩] = 5 ∧ tsMax [⟨5, "bybit", 1⟩] = 5 := by
  refine ⟨?_, rfl, rfl⟩
  simp [calc_pair_diff, hasExchange]

/-- Claim C2 (amended): provided each exchange of the pair has at least one
observation for the symbol, the produced series contains exactly one row
per hour between the earliest and latest observed timestamps; no hour in
that range is skipped and none is duplicated. (When an exchange has no
observation the pair is skipped entirely, per the counterexample.) -/
theorem C2_no_gap (data : List Obs) (a b : String)
    (ha : hasExchange data a = true) (hb : hasExchange data b = true)
    (t : ℕ) (h1 : tsMin data ≤ t) (h2 : t ≤ tsMax data) :
    (calc_pair_diff data a b).countP (fun r => r.ts == t) = 1 := by
  unfold calc_pair_diff
  rw [if_pos (by simp [ha, hb])]
  rw [List.countP_map]
  have hc : ((fun r : DiffRow => r.ts == t) ∘ fun t' =>
      ({ ts := t', exch_a := a, exch_b := b, rate_a := pivotLookup data a t',
         rate_b := pivotLookup data b t',
         diff := diffRule (pivotLookup data a t') (pivotLookup data b t') } : DiffRow))
      = fun t' : ℕ => t' == t := rfl
  rw [hc]
  have hmem : t ∈ timeline data := by
    unfold timeline
    exact List.mem_range'_1.2 ⟨h1, by omega⟩
  have := List.count_eq_one_of_mem (List.nodup_range' _ _) (by
    simpa [timeline] using hmem)
  simpa [List.count] using this

/-- Witness for C2 (amended) at a concrete input: both exchanges observed,
hour 4 lies between the extremes and gets exactly one row. -/
theorem C2_no_gap_witness :
    (calc_pair_diff [⟨3, "binance", 5⟩, ⟨5, "bybit", 2⟩] "binance" "bybit").countP
        (fun r => r.ts == 4) = 1 :=
  C2_no_gap [⟨3, "binance", 5⟩, ⟨5, "bybit", 2⟩] "binance" "bybit"
    (by simp [hasExchange]) (by simp [hasExchange]) 4
    (by simp [tsMin]) (by simp [tsMax])

/-! ### Persistence adapter `insert_fr_diff_with_nulls`

For every in-memory row: the rate legs are stored as-is (true SQL NULLs for
missing legs); `diff_ab` is NOT NULL in the schema, so a null diff is
coerced to `0.0`, and a present diff is stored as `round(float(diff), 8)` —
Python's banker's rounding to 8 decimal places. -/

/-- Round-half-to-even to an integer (the rounding mode of Python's
built-in `round`). -/
def roundHalfEven (q : ℚ) : ℤ :=
  if q - ⌊q⌋ < 1/2 then ⌊q⌋
  else if 1/2 < q - ⌊q⌋ then ⌊q⌋ + 1
  else if 2 ∣ ⌊q⌋ then ⌊q⌋ else ⌊q⌋ + 1

/-- `round(x, 8)`: round-half-to-even at the 8th decimal place. -/
def round8 (q : ℚ) : ℚ :=
  (roundHalfEven (q * 100000000) : ℚ) / 100000000

/-- A stored `funding_rate_diff` row: nullable rate legs, NOT NULL diff. -/
structure PersistedRow where
  ts : ℕ
  rate_a : Option ℚ
  rate_b : Option ℚ
  diff_ab : ℚ
deriving DecidableEq, Repr

/-- Per-row persistence of `insert_fr_diff_with_nulls`: null diff → `0.0`
(with the rate legs still stored as NULLs), present diff → rounded to 8
decimal places. -/
def persistRow (r : DiffRow) : PersistedRow :=
  { ts := r.ts
    rate_a := r.rate_a
    rate_b := r.rate_b
    diff_ab := match r.diff with
      | none => 0
      | some d => round8 d }

/-- `insert_fr_diff_with_nulls` over a frame of rows. -/
def insert_fr_diff_with_nulls (rows : List DiffRow) : List PersistedRow :=
  rows.map persistRow

/-- Claim C5 fails as stated: for a row whose only leg is `rate_a = 10⁻⁹`
(in-memory diff `10⁻⁹` by the null-aware rule), the stored diff is
`round(10⁻⁹, 8) = 0`, not the computed in-memory diff. -/
theorem C5_counterexample :
    (persistRow ⟨7, "binance", "bybit", some (1/1000000000), none,
        diffRule (some (1/1000000000)) none⟩).diff_ab = 0
    ∧ diffRule (some ((1:ℚ)/1000000000)) none = some (1/1000000000)
    ∧ ((1:ℚ)/1000000000) ≠ 0 := by
  refine ⟨?_, rfl, by norm_num⟩
  show round8 (1/1000000000) = 0
  have h1 : ((1:ℚ)/1000000000 * 100000000) = 1/10 := by norm_num
  have h2 : (⌊(1:ℚ)/10⌋ : ℤ) = 0 := by rw [Rat.floor_def]; norm_num
  unfold round8 roundHalfEven
  rw [h1, h2]
  rw [if_pos (by norm_num)]
  norm_num

/-- Claim C5 (amended): a null diff (both legs absent) is stored as `0.0`
while the true NULLs of `rate_a`/`rate_b` are preserved; a present diff is
stored as the in-memory diff rounded half-to-even to 8 decimal places (not
the exact value; rounding is the only other coercion). The null is produced
only at the persistence adapter: in-memory rows keep a real null diff when
both legs are absent. -/
theorem C5_persisted_nulls (r : DiffRow) :
    (r.diff = none →
      persistRow r = ⟨r.ts, r.rate_a, r.rate_b, 0⟩) ∧
    (∀ d : ℚ, r.diff = some d →
      persistRow r = ⟨r.ts, r.rate_a, r.rate_b, round8 d⟩) ∧
    (∀ data pairs, r ∈ calculate_diff_for_symbol data pairs →
      r.rate_a = none → r.rate_b = none → r.diff = none) := by
  refine ⟨?_, ?_, ?_⟩
  · intro h; simp [persistRow, h]
  · intro d h; simp [persistRow, h]
  · intro data pairs hr ha hb
    have := diff_of_mem_calculate data pairs r hr
    rw [this, ha, hb]
    rfl

/-- Witness for C5 (amended) at a concrete row: a null diff row persists as
diff `0.0` with both NULL legs kept. -/
theorem C5_persisted_nulls_witness :
    persistRow ⟨9, "binance", "bybit", none, none, none⟩ = ⟨9, none, none, 0⟩ :=
  (C5_persisted_nulls ⟨9, "binance", "bybit", none, none, none⟩).1 rfl

/-! ### Part B: the incremental range planner (`calculate_processing_ranges`)

The planner compares the source extent (`funding_rate_history`) with the
already-materialized result extent (`funding_rate_diff`) and emits the
date windows to (re)process.  In the source the windows are **date**
ranges (`strftime('%Y-%m-%d')`): the backfill window ends at
`date(result_min − 1 day)` and the append window starts at
`date(result_max + 1 hour)`.  Hours are epoch hour indices; the date of
hour `h` is `h / 24`. -/

/-- Calendar date (day index) of an epoch hour. -/
def dateOf (h : ℕ) : ℕ := h / 24

/-- An inclusive extent of hours `[lo, hi]`. -/
structure Extent where
  lo : ℕ
  hi : ℕ
deriving DecidableEq, Repr

/-- The planner `calculate_processing_ranges` (automatic path, source data
nonempty, no user-specified dates): no result → one window over all source
dates; otherwise a backfill window `[date(src.lo), date(res.lo − 24h)]`
when the source starts earlier, and an append window
`[date(res.hi + 1h), date(src.hi)]` when the source ends later.  Windows
are inclusive date ranges. -/
def calculate_processing_ranges (src : Extent) (res : Option Extent) :
    List (ℕ × ℕ) :=
  match res with
  | none => [(dateOf src.lo, dateOf src.hi)]
  | some r =>
    (if src.lo < r.lo then [(dateOf src.lo, dateOf (r.lo - 24))] else []) ++
    (if r.hi < src.hi then [(dateOf (r.hi + 1), dateOf src.hi)] else [])

/-- Whether hour `h` falls inside the inclusive date window `w`
(a date window `(d₁, d₂)` covers hours `d₁*24 .. d₂*24+23`). -/
def hourInWindow (w : ℕ × ℕ) (h : ℕ) : Bool :=
  decide (w.1 * 24 ≤ h ∧ h ≤ w.2 * 24 + 23)

/-- Whether hour `h` falls inside the inclusive hour extent `e`. -/
def hourInExtent (e : Extent) (h : ℕ) : Bool :=
  decide (e.lo ≤ h ∧ h ≤ e.hi)

/-- How many of the emitted windows plus the existing result extent cover
hour `h` (0 = gap, 1 = exact partition, ≥2 = overlap). -/
def coverCount (ws : List (ℕ × ℕ)) (res : Option Extent) (h : ℕ) : ℕ :=
  ws.countP (fun w => hourInWindow w h) +
    (match res with
     | none => 0
     | some r => if hourInExtent r h then 1 else 0)

/-- Claim C3 fails as stated: with source extent hours `[0,120]` and result
extent `[29,120]` (result starting 05:00 of day 1), the planner emits only
the date-window `(0,0)` (hours 0–23): hour 24 lies in the source extent but
is covered by neither the emitted windows nor the result extent, so the
union of windows and result extent is not the source extent (and the
backfill window ends a full day — not one hour — before the result). -/
theorem C3_counterexample :
    calculate_processing_ranges ⟨0, 120⟩ (some ⟨29, 120⟩) = [(0, 0)]
    ∧ coverCount (calculate_processing_ranges ⟨0, 120⟩ (some ⟨29, 120⟩))
        (some ⟨29, 120⟩) 24 = 0
    ∧ hourInExtent ⟨0, 120⟩ 24 = true := by
  refine ⟨rfl, ?_, rfl⟩
  decide

/-- Claim C3 (amended): the planner's windows are date-granular (backfill
`[date(source_min), date(result_min) − 1 day]`, append
`[date(result_max + 1h), date(source_max)]`, one full window when no result
exists, none when the source extent is contained).  When the extents are
day-aligned (each starts at hour 0 and ends at hour 23 of its day) and the
result extent lies inside the source extent, every source hour is covered
exactly once by the emitted windows together with the result extent — no
gap, no overlap between the windows or with the result extent. -/
theorem C3_partition (sd1 sd2 : ℕ) (resD : Option (ℕ × ℕ))
    (hs : sd1 ≤ sd2)
    (hres : ∀ p, resD = some p → sd1 ≤ p.1 ∧ p.1 ≤ p.2 ∧ p.2 ≤ sd2) :
    ∀ h : ℕ,
      coverCount
        (calculate_processing_ranges ⟨24 * sd1, 24 * sd2 + 23⟩
          (resD.map (fun p => ⟨24 * p.1, 24 * p.2 + 23⟩)))
        (resD.map (fun p => ⟨24 * p.1, 24 * p.2 + 23⟩)) h
      = if hourInExtent ⟨24 * sd1, 24 * sd2 + 23⟩ h then 1 else 0 := by
  intro h
  match resD with
  | none =>
    simp only [Option.map_none', calculate_processing_ranges, coverCount, dateOf,
      List.countP_cons, List.countP_nil, Nat.zero_add, Nat.add_zero]
    split_ifs <;>
      (try simp only [hourInWindow, hourInExtent, decide_eq_true_eq] at *) <;>
      omega
  | some (rd1, rd2) =>
    obtain ⟨h1, h2, h3⟩ := hres (rd1, rd2) rfl
    simp only [Option.map_some', calculate_processing_ranges, coverCount, dateOf]
    split_ifs <;>
      (try simp only [List.countP_append, List.countP_cons, List.countP_nil,
        List.nil_append, List.append_nil, Nat.add_zero, Nat.zero_add]) <;>
      (try split_ifs) <;>
      (try simp only [hourInWindow, hourInExtent, decide_eq_true_eq] at *) <;>
      omega

/-- Witness for C3 (amended): day-aligned source days 0–2, result day 1;
hour 30 (inside the result day) is covered exactly once. -/
theorem C3_partition_witness :
    coverCount
      (calculate_processing_ranges ⟨24 * 0, 24 * 2 + 23⟩
        ((some ((1:ℕ), (1:ℕ))).map (fun p => ⟨24 * p.1, 24 * p.2 + 23⟩)))
      (((some ((1:ℕ), (1:ℕ)))).map (fun p => ⟨24 * p.1, 24 * p.2 + 23⟩)) 30
    = if hourInExtent ⟨24 * 0, 24 * 2 + 23⟩ 30 then 1 else 0 :=
  C3_partition 0 2 (some (1, 1)) (by omega)
    (by intro p hp; cases hp; omega) 30

/-! ### Part C: the return aggregator (`calculate_FR_return_list_v2.py`)

`calculate_returns_sql_optimized` aggregates hourly `funding_rate_diff`
rows of one trading pair into per-date sums (`daily_returns` CTE: GROUP BY
date, ORDER BY date), then computes rolling sums with SQL window functions
`ROWS BETWEEN N-1 PRECEDING AND CURRENT ROW` and annualizes as
`return * 365 / days`, where `days` is the window's row count.
`process_batch_data_sql_optimized` filters the result to the target dates. -/

/-- One hourly `funding_rate_diff` row of a fixed trading pair (the stored
`diff_ab` column is NOT NULL). -/
structure DiffHour where
  ts : ℕ
  diff : ℚ
deriving DecidableEq, Repr

/-- Distinct dates of the pair's rows, ascending (GROUP BY + ORDER BY). -/
def dailyDates (rows : List DiffHour) : List ℕ :=
  List.insertionSort (· ≤ ·) ((rows.map (fun r => r.ts / 24)).dedup)

/-- `SUM(diff_ab)` over the hours of date `d`. -/
def dailySum (rows : List DiffHour) (d : ℕ) : ℚ :=
  ((rows.filter (fun r => r.ts / 24 == d)).map DiffHour.diff).sum

/-- The `daily_returns` CTE: one `(date, daily_return)` row per distinct
date, ascending. -/
def daily_returns (rows : List DiffHour) : List (ℕ × ℚ) :=
  (dailyDates rows).map (fun d => (d, dailySum rows d))

/-- The window `ROWS BETWEEN n-1 PRECEDING AND CURRENT ROW` at row index
`i` of the date-ordered daily series. -/
def trailingRows (daily : List (ℕ × ℚ)) (i n : ℕ) : List (ℕ × ℚ) :=
  (daily.take (i + 1)).drop (i + 1 - n)

/-- Rolling `SUM(daily_return)` over the trailing `n` rows at index `i`. -/
def return_w (daily : List (ℕ × ℚ)) (i n : ℕ) : ℚ :=
  ((trailingRows daily i n).map Prod.snd).sum

/-- `COUNT(*)` over the same window (the `days_Nd` columns). -/
def days_w (daily : List (ℕ × ℚ)) (i n : ℕ) : ℕ :=
  (trailingRows daily i n).length

/-- `CASE WHEN days > 0 THEN return * 365.0 / days ELSE 0.0 END`. -/
def roi_w (daily : List (ℕ × ℚ)) (i n : ℕ) : ℚ :=
  if 0 < days_w daily i n then return_w daily i n * 365 / (days_w daily i n : ℚ)
  else 0

/-- One `return_metrics` output row for a fixed trading pair. -/
structure ReturnMetricRow where
  date : ℕ
  return_1d : ℚ
  roi_1d : ℚ
  return_2d : ℚ
  roi_2d : ℚ
  return_7d : ℚ
  roi_7d : ℚ
  return_14d : ℚ
  roi_14d : ℚ
  return_30d : ℚ
  roi_30d : ℚ
  return_all : ℚ
  roi_all : ℚ
deriving DecidableEq, Repr, Inhabited

/-- The output row at index `i` of the daily series: rolling windows of
1/2/7/14/30 rows, the unbounded window, and the annualized ROIs
(`roi_1d = return_1d * 365`, the others divide by the window's row count). -/
def rowFor (daily : List (ℕ × ℚ)) (i : ℕ) : ReturnMetricRow :=
  { date := (daily.getD i (0, 0)).1
    return_1d := return_w daily i 1
    roi_1d := return_w daily i 1 * 365
    return_2d := return_w daily i 2
    roi_2d := roi_w daily i 2
    return_7d := return_w daily i 7
    roi_7d := roi_w daily i 7
    return_14d := return_w daily i 14
    roi_14d := roi_w daily i 14
    return_30d := return_w daily i 30
    roi_30d := roi_w daily i 30
    return_all := return_w daily i (i + 1)
    roi_all := roi_w daily i (i + 1) }

/-- The rolling computation over a date-ordered daily series: one output
row per daily row. -/
def returnsOfDaily (daily : List (ℕ × ℚ)) : List ReturnMetricRow :=
  (List.range daily.length).map (fun i => rowFor daily i)

/-- `calculate_returns_sql_optimized` for one trading pair: daily
aggregation then the rolling window computation. -/
def calculate_returns_sql_optimized (rows : List DiffHour) : List ReturnMetricRow :=
  returnsOfDaily (daily_returns rows)

/-- `process_batch_data_sql_optimized`: keep only the target dates. -/
def process_batch_data_sql_optimized (rows : List DiffHour) (targets : List ℕ) :
    List ReturnMetricRow :=
  (calculate_returns_sql_optimized rows).filter (fun r => targets.contains r.date)

/-- A daily series on consecutive calendar days starting at date `d0` with
daily sums `vals` (the shape guaranteed by the gap-free differential
timeline). -/
def mkDaily (d0 : ℕ) : List ℚ → List (ℕ × ℚ)
  | [] => []
  | v :: vs => (d0, v) :: mkDaily (d0 + 1) vs

/-- Sum of the daily sums over the calendar-day window `[lo, hi]`. -/
def sumOverDays (daily : List (ℕ × ℚ)) (lo hi : ℕ) : ℚ :=
  ((daily.filter (fun p => decide (lo ≤ p.1) && decide (p.1 ≤ hi))).map Prod.snd).sum

/-- Projection of the daily sums out of a consecutive-day series. -/
theorem mkDaily_map_snd (vals : List ℚ) : ∀ d0, (mkDaily d0 vals).map Prod.snd = vals := by
  induction vals with
  | nil => intro d0; rfl
  | cons v vs ih => intro d0; simp [mkDaily, ih]

/-- Length of a consecutive-day series. -/
theorem mkDaily_length (vals : List ℚ) : ∀ d0, (mkDaily d0 vals).length = vals.length := by
  induction vals with
  | nil => intro d0; rfl
  | cons v vs ih => intro d0; simp [mkDaily, ih]

/-- Row `i` of a consecutive-day series starting at `d0` has date `d0 + i`. -/
theorem mkDaily_getD (vals : List ℚ) : ∀ d0 i, i < vals.length →
    (mkDaily d0 vals).getD i (0, 0) = (d0 + i, vals.getD i 0) := by
  induction vals with
  | nil => intro d0 i h; simp at h
  | cons v vs ih =>
    intro d0 i h
    cases i with
    | zero => simp [mkDaily]
    | succ j =>
      show (mkDaily (d0 + 1) vs).getD j (0, 0) = _
      rw [ih (d0 + 1) j (by simpa using h)]
      refine Prod.ext ?_ rfl
      show d0 + 1 + j = d0 + (j + 1)
      omega

/-- Unfolding step for `sumOverDays`. -/
theorem sumOverDays_cons (d : ℕ) (v : ℚ) (rest : List (ℕ × ℚ)) (lo hi : ℕ) :
    sumOverDays ((d, v) :: rest) lo hi
      = (if lo ≤ d ∧ d ≤ hi then v else 0) + sumOverDays rest lo hi := by
  simp only [sumOverDays, List.filter_cons]
  by_cases h : lo ≤ d ∧ d ≤ hi
  · simp [h]
  · rw [if_neg (by simpa using h), if_neg (by simp [h])]
    simp

/-- On a consecutive-day series, a calendar-day window is a contiguous
take/drop slice of the daily sums. -/
theorem sumOverDays_mkDaily (vals : List ℚ) : ∀ d0 lo hi : ℕ,
    sumOverDays (mkDaily d0 vals) lo hi
      = ((vals.take (hi + 1 - d0)).drop (lo - d0)).sum := by
  induction vals with
  | nil => intro d0 lo hi; simp [mkDaily, sumOverDays]
  | cons v vs ih =>
    intro d0 lo hi
    rw [show mkDaily d0 (v :: vs) = (d0, v) :: mkDaily (d0 + 1) vs from rfl,
      sumOverDays_cons, ih (d0 + 1) lo hi]
    by_cases hhi : d0 ≤ hi
    · have htake : hi + 1 - d0 = (hi - d0) + 1 := by omega
      have htake2 : hi + 1 - (d0 + 1) = hi - d0 := by omega
      rw [htake, htake2, List.take_succ_cons]
      by_cases hlo : lo ≤ d0
      · have h1 : lo - d0 = 0 := by omega
        have h2 : lo - (d0 + 1) = 0 := by omega
        rw [h1, h2, if_pos ⟨hlo, hhi⟩]
        simp
      · have h1 : lo - d0 = (lo - (d0 + 1)) + 1 := by omega
        rw [h1, List.drop_succ_cons, if_neg (by omega)]
        simp
    · have h0 : hi + 1 - d0 = 0 := by omega
      have h02 : hi + 1 - (d0 + 1) = 0 := by omega
      rw [h0, h02, if_neg (by omega)]
      simp

/-- The SQL trailing-rows window on a consecutive-day series equals the
trailing-calendar-days sum. -/
theorem return_w_mkDaily (d0 : ℕ) (vals : List ℚ) (i n : ℕ) :
    return_w (mkDaily d0 vals) i n
      = sumOverDays (mkDaily d0 vals) (d0 + i + 1 - n) (d0 + i) := by
  rw [sumOverDays_mkDaily]
  unfold return_w trailingRows
  rw [List.map_drop, List.map_take, mkDaily_map_snd]
  have e1 : d0 + i + 1 - d0 = i + 1 := by omega
  have e2 : d0 + i + 1 - n - d0 = i + 1 - n := by omega
  rw [e1, e2]

/-- The window row count on a consecutive-day series is
`min n (i + 1)` — the actual number of days used. -/
theorem days_w_mkDaily (d0 : ℕ) (vals : List ℚ) (i n : ℕ) (h : i < vals.length) :
    days_w (mkDaily d0 vals) i n = min n (i + 1) := by
  unfold days_w trailingRows
  rw [List.length_drop, List.length_take, mkDaily_length]
  omega

/-- Indexing the rolling computation. -/
theorem returnsOfDaily_getD (daily : List (ℕ × ℚ)) (i : ℕ) (h : i < daily.length) :
    (returnsOfDaily daily).getD i default = rowFor daily i := by
  unfold returnsOfDaily
  rw [List.getD_eq_getElem?_getD, List.getElem?_map, List.getElem?_range h]
  rfl

/-- Claim C4: over a gap-free daily series (consecutive calendar days, the
shape produced by the differential engine's no-gap timeline), the output
row at index `i` (target date `d0 + i`) has `return_Nd` equal to the sum of
the daily sums over the trailing `N` calendar days ending at the target
date (fewer when history is shorter), `roi_1d = return_1d * 365`,
`roi_Nd = return_Nd * 365 / actual_days_used` with
`actual_days_used = min N (i+1)`, and the `all` window is the full
available history annualized over `i + 1` days. -/
theorem C4_rolling_windows (d0 : ℕ) (vals : List ℚ) (i : ℕ) (hi : i < vals.length) :
    ((returnsOfDaily (mkDaily d0 vals)).getD i default).date = d0 + i
    ∧ ((returnsOfDaily (mkDaily d0 vals)).getD i default).return_1d
        = sumOverDays (mkDaily d0 vals) (d0 + i + 1 - 1) (d0 + i)
    ∧ ((returnsOfDaily (mkDaily d0 vals)).getD i default).roi_1d
        = ((returnsOfDaily (mkDaily d0 vals)).getD i default).return_1d * 365
    ∧ ((returnsOfDaily (mkDaily d0 vals)).getD i default).return_2d
        = sumOverDays (mkDaily d0 vals) (d0 + i + 1 - 2) (d0 + i)
    ∧ ((returnsOfDaily (mkDaily d0 vals)).getD i default).roi_2d
        = ((returnsOfDaily (mkDaily d0 vals)).getD i default).return_2d * 365
            / (min 2 (i + 1) : ℕ)
    ∧ ((returnsOfDaily (mkDaily d0 vals)).getD i default).return_7d
        = sumOverDays (mkDaily d0 vals) (d0 + i + 1 - 7) (d0 + i)
    ∧ ((returnsOfDaily (mkDaily d0 vals)).getD i default).roi_7d
        = ((returnsOfDaily (mkDaily d0 vals)).getD i default).return_7d * 365
            / (min 7 (i + 1) : ℕ)
    ∧ ((returnsOfDaily (mkDaily d0 vals)).getD i default).return_14d
        = sumOverDays (mkDaily d0 vals) (d0 + i + 1 - 14) (d0 + i)
    ∧ ((returnsOfDaily (mkDaily d0 vals)).getD i default).roi_14d
        = ((returnsOfDaily (mkDaily d0 vals)).getD i default).return_14d * 365
            / (min 14 (i + 1) : ℕ)
    ∧ ((returnsOfDaily (mkDaily d0 vals)).getD i default).return_30d
        = sumOverDays (mkDaily d0 vals) (d0 + i + 1 - 30) (d0 + i)
    ∧ ((returnsOfDaily (mkDaily d0 vals)).getD i default).roi_30d
        = ((returnsOfDaily (mkDaily d0 vals)).getD i default).return_30d * 365
            / (min 30 (i + 1) : ℕ)
    ∧ ((returnsOfDaily (mkDaily d0 vals)).getD i default).return_all
        = sumOverDays (mkDaily d0 vals) d0 (d0 + i)
    ∧ ((returnsOfDaily (mkDaily d0 vals)).getD i default).roi_all
        = ((returnsOfDaily (mkDaily d0 vals)).getD i default).return_all * 365
            / ((i + 1 : ℕ) : ℚ) := by
  have hlen : i < (mkDaily d0 vals).length := by rw [mkDaily_length]; exact hi
  rw [returnsOfDaily_getD _ _ hlen]
  have hroi : ∀ n, 1 ≤ n →
      roi_w (mkDaily d0 vals) i n
        = return_w (mkDaily d0 vals) i n * 365 / ((min n (i + 1) : ℕ) : ℚ) := by
    intro n hn
    unfold roi_w
    rw [days_w_mkDaily _ _ _ _ hi, if_pos (by omega)]
  have hdate : (rowFor (mkDaily d0 vals) i).date = d0 + i := by
    show ((mkDaily d0 vals).getD i (0, 0)).1 = d0 + i
    rw [mkDaily_getD _ _ _ hi]
  refine ⟨hdate, return_w_mkDaily .., rfl,
    return_w_mkDaily .., ?_, return_w_mkDaily .., ?_, return_w_mkDaily .., ?_,
    return_w_mkDaily .., ?_, ?_, ?_⟩
  · exact hroi 2 (by omega)
  · exact hroi 7 (by omega)
  · exact hroi 14 (by omega)
  · exact hroi 30 (by omega)
  · rw [show (rowFor (mkDaily d0 vals) i).return_all
        = return_w (mkDaily d0 vals) i (i + 1) from rfl,
      return_w_mkDaily]
    congr 1
    omega
  · rw [show (rowFor (mkDaily d0 vals) i).roi_all
        = roi_w (mkDaily d0 vals) i (i + 1) from rfl, hroi (i + 1) (by omega)]
    rw [Nat.min_self]
    rfl

/-- Witness for C4 at the spec's example: daily sums `d1..d10` on
consecutive days, `return_7d` at day 10 is the trailing-7-day sum and
`roi_7d` annualizes it over 7 days. -/
theorem C4_rolling_windows_witness :
    ((returnsOfDaily (mkDaily 1 [1, 2, 3, 4, 5, 6, 7, 8, 9, 10])).getD 9
        default).return_7d
      = sumOverDays (mkDaily 1 [1, 2, 3, 4, 5, 6, 7, 8, 9, 10]) (1 + 9 + 1 - 7) (1 + 9)
    ∧ ((returnsOfDaily (mkDaily 1 [1, 2, 3, 4, 5, 6, 7, 8, 9, 10])).getD 9
        default).roi_7d
      = ((returnsOfDaily (mkDaily 1 [1, 2, 3, 4, 5, 6, 7, 8, 9, 10])).getD 9
          default).return_7d * 365 / ((min 7 (9 + 1) : ℕ) : ℚ) := by
  have h := C4_rolling_windows 1 [1, 2, 3, 4, 5, 6, 7, 8, 9, 10] 9 (by norm_num)
  exact ⟨h.2.2.2.2.2.1, h.2.2.2.2.2.2.1⟩

/-- Claim C8 fails as stated: a trading pair whose only data is on day 0,
asked for target date 1 (which has no daily entry), yields no
`ReturnMetric` record at all for day 1 — the record is omitted, not
zero-filled (`daily_returns` only contains dates with rows, and the batch
step filters the rolling output to the target dates). -/
theorem C8_counterexample :
    dailyDates [⟨0, 1⟩] = [0]
    ∧ process_batch_data_sql_optimized [⟨0, 1⟩] [1] = [] := by
  constructor
  · rfl
  · show List.filter _ _ = _
    rw [show calculate_returns_sql_optimized [⟨0, 1⟩]
        = [rowFor (daily_returns [⟨0, 1⟩]) 0] from rfl]
    rw [List.filter_cons, if_neg (by simp [rowFor, daily_returns, dailyDates])]
    rfl

/-- Helper: indexing with a default inside the bounds lands in the list. -/
theorem getD_mem_of_lt {α : Type} (l : List α) (d : α) (i : ℕ) (h : i < l.length) :
    l.getD i d ∈ l := by
  rw [List.getD_eq_getElem?_getD, List.getElem?_eq_getElem h]
  simpa using List.getElem_mem (l := l) (i := i)

/-- Claim C8 (amended): every record emitted by the SQL-optimized batch
aggregator is for a date that actually has at least one hourly diff row;
(trading pair, date) combinations with no data for the target date are
omitted from the output, not emitted with zeros. -/
theorem C8_omits_empty_dates (rows : List DiffHour) (targets : List ℕ) :
    ∀ r ∈ process_batch_data_sql_optimized rows targets,
      ∃ h ∈ rows, h.ts / 24 = r.date := by
  intro r hr
  have hr2 : r ∈ calculate_returns_sql_optimized rows := List.mem_of_mem_filter hr
  unfold calculate_returns_sql_optimized returnsOfDaily at hr2
  obtain ⟨i, hi, rfl⟩ := List.mem_map.1 hr2
  rw [List.mem_range] at hi
  have hd : (daily_returns rows).getD i (0, 0) ∈ daily_returns rows :=
    getD_mem_of_lt _ _ _ hi
  unfold daily_returns at hd
  obtain ⟨d, hdd, heq⟩ := List.mem_map.1 hd
  have hdate : (rowFor (daily_returns rows) i).date = d := by
    show ((daily_returns rows).getD i (0, 0)).1 = d
    unfold daily_returns
    rw [← heq]
  rw [hdate]
  have hd2 : d ∈ (rows.map (fun r => r.ts / 24)).dedup := by
    unfold dailyDates at hdd
    exact (List.mem_insertionSort _).1 hdd
  obtain ⟨o, ho, hts⟩ := List.mem_map.1 (List.mem_dedup.1 hd2)
  exact ⟨o, ho, hts⟩

/-- Witness for C8 (amended): the single emitted record for a pair with one
hourly row at hour 0 is backed by that row. -/
theorem C8_omits_empty_dates_witness :
    ∃ h ∈ [(⟨0, 1⟩ : DiffHour)],
      h.ts / 24 = (rowFor (daily_returns [⟨0, 1⟩]) 0).date := by
  refine C8_omits_empty_dates [⟨0, 1⟩] [0] (rowFor (daily_returns [⟨0, 1⟩]) 0) ?_
  show rowFor (daily_returns [⟨0, 1⟩]) 0 ∈ List.filter _ _
  rw [show calculate_returns_sql_optimized [⟨0, 1⟩]
      = [rowFor (daily_returns [⟨0, 1⟩]) 0] from rfl]
  rw [List.filter_cons, if_pos (by simp [rowFor, daily_returns, dailyDates])]
  exact List.mem_cons_self _ _

/-! ### Part D: the configurable multi-factor ranking engine
(`ranking_engine.py`, driven per date by `strategy_ranking_v2.py`)

`calculate_component_score` checks that every configured indicator column
exists (raising `ValueError` otherwise), coerces NaN/±inf cells to `0`,
optionally z-scores each indicator column cross-sectionally
(`(x − mean)/std`, with the `std != 0` guard whose else-branch writes `0`),
and sums the columns with the weights renormalized to sum 1.
`calculate_final_ranking` computes every component score — catching any
exception and substituting `np.zeros(len(df))` — combines them with the
renormalized final weights, and sorts by final score descending.
`calculate_daily_ranking` (strategy_ranking_v2) sorts again and assigns
ranks `1..N`.

Floats are modelled as `FVal := Option ℚ` with `none` for NaN; `Series.std`
(`ddof=1`, the pandas default) is NaN for fewer than two values, else the
square root of the sample variance (`ratSqrt`, the rational square root,
models the float square root; it is zero exactly on zero).  The optional
`volatility_penalty` component flag (unused by the claims) is not
modelled, and component names are assumed distinct as in every shipped
configuration. -/

/-- A float cell: `none` is NaN. -/
abbrev FVal : Type := Option ℚ

/-- NaN-propagating addition. -/
def fadd : FVal → FVal → FVal
  | some a, some b => some (a + b)
  | _, _ => none

/-- NaN-propagating multiplication. -/
def fmul : FVal → FVal → FVal
  | some a, some b => some (a * b)
  | _, _ => none

/-- Arithmetic mean of a column. -/
def listMean (xs : List ℚ) : ℚ := xs.sum / (xs.length : ℚ)

/-- Sample variance with `ddof = 1` (the pandas default). -/
def sampleVar (xs : List ℚ) : ℚ :=
  ((xs.map (fun x => (x - listMean xs) ^ 2)).sum) / ((xs.length - 1 : ℕ) : ℚ)

/-- Rational square root (componentwise integer square root), the model of
the float square root: exact on perfect squares and zero exactly on zero. -/
def ratSqrt (q : ℚ) : ℚ :=
  (Int.sqrt q.num : ℚ) / (Nat.sqrt q.den : ℚ)

/-- pandas `Series.std()` (`ddof=1`): NaN for fewer than two values, else
the square root of the sample variance. -/
def sampleStd (xs : List ℚ) : FVal :=
  if xs.length ≤ 1 then none else some (ratSqrt (sampleVar xs))

/-- The `std != 0` guard of the normalization branch: NaN compares unequal
to zero, so a NaN standard deviation takes the z-score branch. -/
def stdNeZero : FVal → Bool
  | none => true
  | some s => !(s == 0)

/-- Cross-sectional z-score normalization of one indicator column:
`(x − mean)/std` when `std != 0` (dividing by a NaN std gives NaN for every
pair), else the protective branch writes `0` for all pairs. -/
def normalizeCol (xs : List ℚ) : List FVal :=
  if stdNeZero (sampleStd xs) then
    xs.map (fun x =>
      match sampleStd xs with
      | none => none
      | some s => some ((x - listMean xs) / s))
  else
    xs.map (fun _ => some 0)

/-- One cross-section row: trading pair and its `ReturnMetric` cells
(a missing/NaN cell is `none`). -/
structure PairRow where
  pair : String
  cells : List (String × FVal)
deriving DecidableEq, Repr

/-- A same-day cross-section of `ReturnMetric` rows: the frame's columns
and its rows. -/
structure CrossSection where
  cols : List String
  rows : List PairRow
deriving DecidableEq, Repr

/-- Cell lookup in a row (NaN when absent). -/
def cellValue (r : PairRow) (c : String) : FVal :=
  match r.cells.find? (fun p => p.1 == c) with
  | some p => p.2
  | none => none

/-- Indicator column `c` after `fillna(0)`/`replace(±inf, 0)`. -/
def colRaw (df : CrossSection) (c : String) : List ℚ :=
  df.rows.map (fun r => (cellValue r c).getD 0)

/-- One component of a strategy: indicator columns, weights, and the
normalization flag. -/
structure ComponentConfig where
  indicators : List String
  weights : List ℚ
  normalize : Bool
deriving DecidableEq, Repr

/-- The final combination of a strategy: component names and weights. -/
structure FinalCombination where
  scores : List String
  weights : List ℚ
deriving DecidableEq, Repr

/-- A named ranking strategy: components plus the final combination. -/
structure Strategy where
  components : List (String × ComponentConfig)
  final_combination : FinalCombination
deriving DecidableEq, Repr

/-- The component's indicator columns, optionally normalized. -/
def componentCols (df : CrossSection) (cfg : ComponentConfig) : List (List FVal) :=
  cfg.indicators.map (fun c =>
    if cfg.normalize then normalizeCol (colRaw df c)
    else (colRaw df c).map some)

/-- One step of `score += indicator_column * weight`. -/
def weightedStep (acc : List FVal) (cw : List FVal × ℚ) : List FVal :=
  List.zipWith (fun a x => fadd a (fmul x (some cw.2))) acc cw.1

/-- `np.zeros(n)` accumulated over `zip(columns, weights)`. -/
def weightedScores (cols : List (List FVal)) (ws : List ℚ) (n : ℕ) : List FVal :=
  (cols.zip ws).foldl weightedStep (List.replicate n (some 0))

/-- `RankingEngine.calculate_component_score`: raises (here: returns an
error) when any configured indicator is absent from the frame's columns;
otherwise the weighted sum of the (optionally normalized) indicator
columns, with weights renormalized to sum 1. -/
def calculate_component_score (df : CrossSection) (cfg : ComponentConfig) :
    Except String (List FVal) :=
  if cfg.indicators.any (fun c => !(df.cols.contains c)) then
    Except.error "missing indicators"
  else
    Except.ok (weightedScores (componentCols df cfg)
      (cfg.weights.map (fun w => w / cfg.weights.sum)) df.rows.length)

/-- The component scores computed by `calculate_final_ranking`: any
exception from `calculate_component_score` is caught and replaced by
`np.zeros(len(df))`. -/
def componentScoresOf (eng : Strategy) (df : CrossSection) :
    List (String × List FVal) :=
  eng.components.map (fun p =>
    (p.1, match calculate_component_score df p.2 with
      | Except.ok s => s
      | Except.error _ => List.replicate df.rows.length (some 0)))

/-- One step of `final_score += component_scores[name] * weight` (names not
found are skipped with a warning). -/
def finalStep (eng : Strategy) (df : CrossSection) (acc : List FVal)
    (nw : String × ℚ) : List FVal :=
  match (componentScoresOf eng df).find? (fun q => q.1 == nw.1) with
  | some q => List.zipWith (fun a x => fadd a (fmul x (some nw.2))) acc q.2
  | none => acc

/-- The final scores: components combined with the renormalized final
weights. -/
def finalScores (eng : Strategy) (df : CrossSection) : List FVal :=
  (eng.final_combination.scores.zip
      (eng.final_combination.weights.map
        (fun w => w / eng.final_combination.weights.sum))).foldl
    (finalStep eng df) (List.replicate df.rows.length (some 0))

/-- A ranked output row: trading pair and final score. -/
structure RankedRow where
  pair : String
  score : FVal
deriving DecidableEq, Repr

/-- The scored frame in input order (before sorting). -/
def scoredRows (eng : Strategy) (df : CrossSection) : List RankedRow :=
  List.zipWith (fun r s => RankedRow.mk r.pair s) df.rows (finalScores eng df)

/-- The sort key of `sort_values('final_ranking_score', ascending=False)`:
descending by score, NaN last (pandas `na_position='last'`). -/
def scoreLE : FVal → FVal → Bool
  | some a, some b => decide (b ≤ a)
  | some _, none => true
  | none, some _ => false
  | none, none => true

/-- The row ordering induced by `scoreLE`. -/
def rowLE (u v : RankedRow) : Prop := scoreLE u.score v.score = true

instance : DecidableRel rowLE := fun u v => by
  unfold rowLE; infer_instance

instance : IsTotal RankedRow rowLE := by
  constructor
  intro u v
  unfold rowLE scoreLE
  rcases u.score with _ | a <;> rcases v.score with _ | b <;> simp
  exact le_total b a

instance : IsTrans RankedRow rowLE := by
  constructor
  intro u v w h1 h2
  unfold rowLE scoreLE at *
  rcases hu : u.score with _ | a <;> rcases hv : v.score with _ | b <;>
    rcases hw : w.score with _ | c <;> simp_all
  exact le_trans h2 h1

/-- `RankingEngine.calculate_final_ranking`: empty frame passes through;
otherwise the scored rows sorted by final score descending.  The
`List.insertionSort` model fixes one deterministic tie order; the
program's own tie order is that of numpy's unstable quicksort, embedded
separately as `sort_values_desc_order` below. -/
def calculate_final_ranking (eng : Strategy) (df : CrossSection) :
    List RankedRow :=
  if df.rows.isEmpty then [] else List.insertionSort rowLE (scoredRows eng df)

/-- `ranked_df['Rank'] = range(1, len(ranked_df) + 1)`. -/
def addRanks : ℕ → List RankedRow → List (RankedRow × ℕ)
  | _, [] => []
  | k, r :: rest => (r, k) :: addRanks (k + 1) rest

/-- `calculate_daily_ranking` of `strategy_ranking_v2.py`: rank the frame
again by final score descending and assign dense ranks `1..N` (same
tie-order caveat as `calculate_final_ranking`). -/
def calculate_daily_ranking (eng : Strategy) (df : CrossSection) :
    List (RankedRow × ℕ) :=
  addRanks 1 (List.insertionSort rowLE (calculate_final_ranking eng df))

/-- Normalization preserves the column length. -/
theorem normalizeCol_length (xs : List ℚ) : (normalizeCol xs).length = xs.length := by
  unfold normalizeCol
  split <;> simp

/-- Every component column has one entry per cross-section row. -/
theorem componentCols_mem_length (df : CrossSection) (cfg : ComponentConfig) :
    ∀ col ∈ componentCols df cfg, col.length = df.rows.length := by
  intro col hcol
  obtain ⟨c, _, rfl⟩ := List.mem_map.1 hcol
  split
  · rw [normalizeCol_length]; simp [colRaw]
  · simp [colRaw]

/-- The weighted accumulation preserves the score-vector length. -/
theorem foldl_weightedStep_length (l : List (List FVal × ℚ)) (n : ℕ) :
    (∀ p ∈ l, p.1.length = n) → ∀ acc : List FVal, acc.length = n →
      (l.foldl weightedStep acc).length = n := by
  induction l with
  | nil => intro _ acc hacc; simpa using hacc
  | cons p rest ih =>
    intro hmem acc hacc
    rw [List.foldl_cons]
    refine ih (fun q hq => hmem q (List.mem_cons_of_mem p hq)) _ ?_
    unfold weightedStep
    rw [List.length_zipWith, hacc, hmem p (List.mem_cons_self p rest)]
    omega

/-- A successful component score has one entry per cross-section row. -/
theorem calculate_component_score_length (df : CrossSection) (cfg : ComponentConfig)
    (s : List FVal) (h : calculate_component_score df cfg = Except.ok s) :
    s.length = df.rows.length := by
  unfold calculate_component_score at h
  split at h
  · exact absurd h (by simp)
  · cases h
    refine foldl_weightedStep_length _ _ ?_ _ (by simp)
    intro p hp
    exact componentCols_mem_length df cfg p.1 (List.of_mem_zip hp).1

/-- Every (possibly zero-substituted) component score vector has one entry
per cross-section row. -/
theorem componentScoresOf_mem_length (eng : Strategy) (df : CrossSection) :
    ∀ p ∈ componentScoresOf eng df, p.2.length = df.rows.length := by
  intro p hp
  obtain ⟨q, _, rfl⟩ := List.mem_map.1 hp
  cases hc : calculate_component_score df q.2 with
  | ok s => simp only [hc]; exact calculate_component_score_length df q.2 s hc
  | error e => simp [hc]

/-- The final combination preserves the score-vector length. -/
theorem foldl_finalStep_length (eng : Strategy) (df : CrossSection)
    (l : List (String × ℚ)) : ∀ acc : List FVal, acc.length = df.rows.length →
      (l.foldl (finalStep eng df) acc).length = df.rows.length := by
  induction l with
  | nil => intro acc hacc; simpa using hacc
  | cons nw rest ih =>
    intro acc hacc
    rw [List.foldl_cons]
    refine ih _ ?_
    unfold finalStep
    cases hf : (componentScoresOf eng df).find? (fun q => q.1 == nw.1) with
    | none => simpa using hacc
    | some q =>
      have hq : q ∈ componentScoresOf eng df := List.mem_of_find?_eq_some hf
      simp only [List.length_zipWith, hacc,
        componentScoresOf_mem_length eng df q hq]
      omega

/-- One final score per cross-section row. -/
theorem finalScores_length (eng : Strategy) (df : CrossSection) :
    (finalScores eng df).length = df.rows.length :=
  foldl_finalStep_length eng df _ _ (by simp)

/-- Pairs of the zipped scored rows, in input order. -/
theorem zipWith_pair_map (rows : List PairRow) : ∀ scores : List FVal,
    scores.length = rows.length →
    (List.zipWith (fun r s => RankedRow.mk r.pair s) rows scores).map RankedRow.pair
      = rows.map PairRow.pair := by
  induction rows with
  | nil => intro scores h; simp
  | cons r rest ih =>
    intro scores h
    cases scores with
    | nil => simp at h
    | cons s srest =>
      simp only [List.zipWith_cons_cons, List.map_cons, List.cons.injEq, true_and]
      exact ih srest (by simpa using h)

/-- One scored row per cross-section row, pairs in input order. -/
theorem scoredRows_map_pair (eng : Strategy) (df : CrossSection) :
    (scoredRows eng df).map RankedRow.pair = df.rows.map PairRow.pair := by
  unfold scoredRows
  exact zipWith_pair_map df.rows (finalScores eng df) (finalScores_length eng df)

/-- Ranked rows keep the sorted list. -/
theorem addRanks_map_fst (l : List RankedRow) : ∀ k,
    (addRanks k l).map Prod.fst = l := by
  induction l with
  | nil => intro k; rfl
  | cons r rest ih => intro k; simp [addRanks, ih]

/-- Claim C9 fails as stated: in a two-pair cross-section where pair
`EMPTY` has a NaN for its every indicator cell (nothing computable for it),
the engine does not exclude it: `fillna(0)` coerces the NaN to `0`, the
pair receives the default component/final score `0` and is ranked (here
rank 2), rather than being dropped from the output. -/
theorem C9_counterexample :
    (∀ p ∈ (PairRow.mk "EMPTY" [("1d_ROI", none)]).cells, p.2 = none)
    ∧ calculate_daily_ranking
        ⟨[("c", ⟨["1d_ROI"], [1], false⟩)], ⟨["c"], [1]⟩⟩
        ⟨["1d_ROI"], [⟨"GOOD", [("1d_ROI", some 1)]⟩,
          ⟨"EMPTY", [("1d_ROI", none)]⟩]⟩
      = [(⟨"GOOD", some 1⟩, 1), (⟨"EMPTY", some 0⟩, 2)] := by
  constructor
  · intro p hp
    simp only [List.mem_singleton] at hp
    rw [hp]
  · have hscores : finalScores
        ⟨[("c", ⟨["1d_ROI"], [1], false⟩)], ⟨["c"], [1]⟩⟩
        ⟨["1d_ROI"], [⟨"GOOD", [("1d_ROI", some 1)]⟩,
          ⟨"EMPTY", [("1d_ROI", none)]⟩]⟩ = [some 1, some 0] := by
      simp [finalScores, finalStep, componentScoresOf, calculate_component_score,
        componentCols, colRaw, cellValue, weightedScores, weightedStep,
        fadd, fmul, List.find?]
    unfold calculate_daily_ranking calculate_final_ranking
    rw [if_neg (by simp)]
    unfold scoredRows
    rw [hscores]
    simp only [List.zipWith_cons_cons, List.zipWith_nil_left,
      List.zipWith_nil_right]
    have hsorted : List.Sorted rowLE
        [RankedRow.mk "GOOD" (some 1), RankedRow.mk "EMPTY" (some 0)] := by
      norm_num [List.sorted_cons, rowLE, scoreLE]
    rw [hsorted.insertionSort_eq, hsorted.insertionSort_eq]
    rfl

/-- Claim C9 (amended): no pair of the input cross-section is ever excluded
from the day's ranking output — the ranked output's trading pairs are a
permutation of the input's (non-computable cells are coerced to `0.0` and
the pair is ranked with the resulting default score); only pairs absent
from the input cross-section are absent from the output. -/
theorem C9_all_pairs_ranked (eng : Strategy) (df : CrossSection) :
    List.Perm ((calculate_daily_ranking eng df).map (fun q => q.1.pair))
      (df.rows.map PairRow.pair) := by
  have h1 : (calculate_daily_ranking eng df).map (fun q => q.1.pair)
      = ((calculate_daily_ranking eng df).map Prod.fst).map RankedRow.pair := by
    rw [List.map_map]
    rfl
  rw [h1]
  unfold calculate_daily_ranking
  rw [addRanks_map_fst]
  refine ((List.perm_insertionSort rowLE _).map RankedRow.pair).trans ?_
  unfold calculate_final_ranking
  split
  · rename_i h
    simp [scoredRows, List.isEmpty_iff.1 h]
  · refine ((List.perm_insertionSort rowLE _).map RankedRow.pair).trans ?_
    rw [scoredRows_map_pair]

/-- Claim C6 fails as stated: for a strategy whose only component references
the indicator `7d_ROI`, absent from a cross-section that has only the
column `1d_ROI`, `calculate_component_score` does raise (modelled as an
error value), but `calculate_final_ranking` catches the exception and
substitutes an all-zero component score: the daily run completes normally,
ranks the pair with score 0, and surfaces no error to the caller. -/
theorem C6_counterexample :
    calculate_component_score
        ⟨["1d_ROI"], [⟨"P1", [("1d_ROI", some 1)]⟩]⟩
        ⟨["7d_ROI"], [1], false⟩
      = Except.error "missing indicators"
    ∧ componentScoresOf
        ⟨[("c", ⟨["7d_ROI"], [1], false⟩)], ⟨["c"], [1]⟩⟩
        ⟨["1d_ROI"], [⟨"P1", [("1d_ROI", some 1)]⟩]⟩
      = [("c", [some 0])]
    ∧ calculate_daily_ranking
        ⟨[("c", ⟨["7d_ROI"], [1], false⟩)], ⟨["c"], [1]⟩⟩
        ⟨["1d_ROI"], [⟨"P1", [("1d_ROI", some 1)]⟩]⟩
      = [(⟨"P1", some 0⟩, 1)] := by
  refine ⟨rfl, rfl, ?_⟩
  have hscores : finalScores
      ⟨[("c", ⟨["7d_ROI"], [1], false⟩)], ⟨["c"], [1]⟩⟩
      ⟨["1d_ROI"], [⟨"P1", [("1d_ROI", some 1)]⟩]⟩ = [some 0] := by
    simp [finalScores, finalStep, componentScoresOf, calculate_component_score,
      fadd, fmul, List.find?]
  unfold calculate_daily_ranking calculate_final_ranking
  rw [if_neg (by simp)]
  unfold scoredRows
  rw [hscores]
  simp only [List.zipWith_cons_cons, List.zipWith_nil_left, List.zipWith_nil_right]
  have hsorted : List.Sorted rowLE [RankedRow.mk "P1" (some 0)] :=
    List.sorted_singleton _
  rw [hsorted.insertionSort_eq, hsorted.insertionSort_eq]
  rfl

/-- Claim C6 (amended): a component referencing an indicator absent from the
cross-section raises inside `calculate_component_score` (a `ValueError`,
modelled as an error result), but `calculate_final_ranking` catches it and
absorbs it into a default all-zero component score; the strategy run does
not fail and no error propagates to the caller. -/
theorem C6_error_absorbed (df : CrossSection) (cfg : ComponentConfig)
    (hmiss : ∃ c ∈ cfg.indicators, c ∉ df.cols) :
    calculate_component_score df cfg = Except.error "missing indicators"
    ∧ ∀ (eng : Strategy) (name : String), (name, cfg) ∈ eng.components →
        (name, List.replicate df.rows.length (some 0))
          ∈ componentScoresOf eng df := by
  obtain ⟨c, hc, hnc⟩ := hmiss
  have herr : calculate_component_score df cfg = Except.error "missing indicators" := by
    unfold calculate_component_score
    rw [if_pos]
    exact List.any_eq_true.2 ⟨c, hc, by simpa using hnc⟩
  refine ⟨herr, ?_⟩
  intro eng name hmem
  unfold componentScoresOf
  refine List.mem_map.2 ⟨(name, cfg), hmem, ?_⟩
  rw [herr]

/-- Witness for C6 (amended): the concrete missing-indicator configuration
from the counterexample is absorbed into the zero component score. -/
theorem C6_error_absorbed_witness :
    calculate_component_score
        ⟨["1d_ROI"], [⟨"P1", [("1d_ROI", some 1)]⟩]⟩
        ⟨["7d_ROI"], [1], false⟩
      = Except.error "missing indicators"
    ∧ ("c", List.replicate
          (CrossSection.mk ["1d_ROI"] [⟨"P1", [("1d_ROI", some 1)]⟩]).rows.length
          (some 0))
        ∈ componentScoresOf
          ⟨[("c", ⟨["7d_ROI"], [1], false⟩)], ⟨["c"], [1]⟩⟩
          ⟨["1d_ROI"], [⟨"P1", [("1d_ROI", some 1)]⟩]⟩ := by
  have h := C6_error_absorbed
    ⟨["1d_ROI"], [⟨"P1", [("1d_ROI", some 1)]⟩]⟩
    ⟨["7d_ROI"], [1], false⟩
    ⟨"7d_ROI", by simp, by simp⟩
  exact ⟨h.1, h.2 ⟨[("c", ⟨["7d_ROI"], [1], false⟩)], ⟨["c"], [1]⟩⟩ "c"
    (by simp)⟩

/-- pandas sample std of a single value is NaN (`0/0` with `ddof=1`). -/
theorem sampleStd_singleton (x : ℚ) : sampleStd [x] = none := rfl

/-- Normalizing a single-pair column divides by a NaN std: every value
becomes NaN (the `std != 0` guard is true for NaN). -/
theorem normalizeCol_singleton (v : ℚ) : normalizeCol [v] = [none] := by
  simp [normalizeCol, sampleStd, stdNeZero]

/-- NaN absorption of the weighted accumulation on a single-row frame. -/
theorem foldl_weightedStep_nan (l : List (List FVal × ℚ))
    (hcols : ∀ p ∈ l, p.1 = [none]) (hne : l ≠ []) :
    ∀ v : FVal, l.foldl weightedStep [v] = [none] := by
  induction l with
  | nil => exact absurd rfl hne
  | cons p rest ih =>
    intro v
    rw [List.foldl_cons]
    have hstep : weightedStep [v] p = [none] := by
      unfold weightedStep
      rw [hcols p (List.mem_cons_self p rest)]
      cases v <;> rfl
    rw [hstep]
    cases rest with
    | nil => rfl
    | cons q qrest =>
      exact ih (fun x hx => hcols x (List.mem_cons_of_mem p hx)) (by simp) none

/-- A normalized component on a single-pair cross-section evaluates to the
NaN score vector. -/
theorem component_score_single_nan (df : CrossSection) (row : PairRow)
    (cfg : ComponentConfig)
    (hrows : df.rows = [row]) (hnorm : cfg.normalize = true)
    (hind : cfg.indicators ≠ []) (hw : cfg.weights ≠ [])
    (hcols : ∀ c ∈ cfg.indicators, c ∈ df.cols) :
    calculate_component_score df cfg = Except.ok [none] := by
  unfold calculate_component_score
  have hcond : cfg.indicators.any (fun c => !(df.cols.contains c)) = false := by
    rw [List.any_eq_false]
    intro c hc
    simp [hcols c hc]
  rw [if_neg (by rw [hcond]; simp)]
  congr 1
  have hcc : ∀ col ∈ componentCols df cfg, col = [none] := by
    intro col hcol
    obtain ⟨c, hc, rfl⟩ := List.mem_map.1 hcol
    rw [if_pos hnorm]
    rw [show colRaw df c = [(cellValue row c).getD 0] by simp [colRaw, hrows]]
    exact normalizeCol_singleton _
  unfold weightedScores
  rw [hrows]
  show _ = [none]
  refine foldl_weightedStep_nan _ ?_ ?_ (some 0)
  · intro p hp
    exact hcc p.1 (List.of_mem_zip hp).1
  · intro hcontra
    have hlen := congrArg List.length hcontra
    rw [List.length_zip] at hlen
    simp [componentCols] at hlen
    rcases hlen with h | h
    · exact hind h
    · exact hw h

/-- NaN absorption of the final combination on a single-row frame. -/
theorem foldl_finalStep_nan (eng : Strategy) (df : CrossSection)
    (l : List (String × ℚ))
    (hfind : ∀ nw ∈ l, ∃ q, (componentScoresOf eng df).find?
        (fun x => x.1 == nw.1) = some q)
    (hentries : ∀ q ∈ componentScoresOf eng df, q.2 = [none])
    (hne : l ≠ []) :
    ∀ v : FVal, l.foldl (finalStep eng df) [v] = [none] := by
  induction l with
  | nil => exact absurd rfl hne
  | cons nw rest ih =>
    intro v
    rw [List.foldl_cons]
    obtain ⟨q, hq⟩ := hfind nw (List.mem_cons_self nw rest)
    have hstep : finalStep eng df [v] nw = [none] := by
      unfold finalStep
      rw [hq]
      show List.zipWith (fun a x => fadd a (fmul x (some nw.2))) [v] q.2 = [none]
      rw [hentries q (List.mem_of_find?_eq_some hq)]
      cases v <;> rfl
    rw [hstep]
    cases rest with
    | nil => rfl
    | cons p prest =>
      exact ih (fun x hx => hfind x (List.mem_cons_of_mem nw hx)) (by simp) none

/-- A list of nonnegative squares summing to zero pins every element to the
mean. -/
theorem sum_sq_zero_all_eq (xs : List ℚ) (m : ℚ)
    (h : (xs.map (fun x => (x - m) ^ 2)).sum = 0) : ∀ x ∈ xs, x = m := by
  induction xs with
  | nil => intro x hx; simp at hx
  | cons a rest ih =>
    intro x hx
    rw [List.map_cons, List.sum_cons] at h
    have h2 : 0 ≤ (rest.map (fun x => (x - m) ^ 2)).sum := by
      refine List.sum_nonneg ?_
      intro b hb
      obtain ⟨y, _, rfl⟩ := List.mem_map.1 hb
      positivity
    have h1 : 0 ≤ (a - m) ^ 2 := sq_nonneg _
    rcases List.mem_cons.1 hx with rfl | hx'
    · have ha : (x - m) ^ 2 = 0 := by linarith
      have := (pow_eq_zero_iff two_ne_zero).1 ha
      linarith [sub_eq_zero.1 this]
    · exact ih (by linarith) x hx'

/-- The rational square root of a nonnegative rational vanishes only at
zero. -/
theorem ratSqrt_eq_zero (q : ℚ) (hq : 0 ≤ q) (h : ratSqrt q = 0) : q = 0 := by
  unfold ratSqrt at h
  rcases div_eq_zero_iff.1 h with h1 | h2
  · have hz : Int.sqrt q.num = 0 := by exact_mod_cast h1
    unfold Int.sqrt at hz
    have hzn : Nat.sqrt q.num.toNat = 0 := by exact_mod_cast hz
    have htn : q.num.toNat = 0 := Nat.sqrt_eq_zero.1 hzn
    have hnn : 0 ≤ q.num := Rat.num_nonneg.2 hq
    have : q.num = 0 := by omega
    exact Rat.num_eq_zero.1 this
  · have hz : Nat.sqrt q.den = 0 := by exact_mod_cast h2
    have hd0 := Nat.sqrt_eq_zero.1 hz
    exact absurd hd0 (Nat.pos_iff_ne_zero.1 q.den_pos)

/-- Claim C10: on a cross-section with exactly one trading pair, a
normalized component evaluates to NaN, not 0: the pandas sample std
(`ddof=1`) of a single value is NaN, the `std != 0` guard is true for NaN,
so the value is divided by the NaN std and every weighted sum stays NaN —
hence the final score of the pair is NaN as well.  The protective
zero-std branch (normalized value `0`) fires only when the std is exactly
zero, which requires at least two pairs whose values all coincide. -/
theorem C10_single_pair_nan (df : CrossSection) (row : PairRow) (eng : Strategy)
    (hrows : df.rows = [row])
    (hcomp : ∀ p ∈ eng.components, p.2.normalize = true ∧ p.2.indicators ≠ []
      ∧ p.2.weights ≠ [] ∧ ∀ c ∈ p.2.indicators, c ∈ df.cols)
    (hfs : eng.final_combination.scores ≠ [])
    (hfw : eng.final_combination.weights ≠ [])
    (hnames : ∀ name ∈ eng.final_combination.scores,
        ∃ cfg, (name, cfg) ∈ eng.components) :
    (∀ x : ℚ, sampleStd [x] = none)
    ∧ stdNeZero none = true
    ∧ (∀ p ∈ eng.components, calculate_component_score df p.2 = Except.ok [none])
    ∧ finalScores eng df = [none]
    ∧ (∀ xs : List ℚ, sampleStd xs = some 0 →
        2 ≤ xs.length ∧ ∀ x ∈ xs, ∀ y ∈ xs, x = y) := by
  have hcomps : ∀ p ∈ eng.components,
      calculate_component_score df p.2 = Except.ok [none] := by
    intro p hp
    obtain ⟨h1, h2, h3, h4⟩ := hcomp p hp
    exact component_score_single_nan df row p.2 hrows h1 h2 h3 h4
  have hentries : ∀ q ∈ componentScoresOf eng df, q.2 = [none] := by
    intro q hq
    obtain ⟨p, hp, rfl⟩ := List.mem_map.1 hq
    rw [hcomps p hp]
  refine ⟨fun x => rfl, rfl, hcomps, ?_, ?_⟩
  · unfold finalScores
    rw [hrows]
    refine foldl_finalStep_nan eng df _ ?_ hentries ?_ (some 0)
    · intro nw hnw
      obtain ⟨n, w⟩ := nw
      have hn : n ∈ eng.final_combination.scores := (List.of_mem_zip hnw).1
      obtain ⟨cfg, hcfg⟩ := hnames n hn
      have hmem : (n, (match calculate_component_score df cfg with
          | Except.ok s => s
          | Except.error _ => List.replicate df.rows.length (some 0)))
            ∈ componentScoresOf eng df :=
        List.mem_map.2 ⟨(n, cfg), hcfg, rfl⟩
      have hsome : ((componentScoresOf eng df).find?
          (fun x => x.1 == (n, w).1)).isSome :=
        List.find?_isSome.2 ⟨_, hmem, by simp⟩
      exact Option.isSome_iff_exists.1 hsome
    · intro hzip
      have hlen := congrArg List.length hzip
      rw [List.length_zip] at hlen
      simp at hlen
      rcases hlen with h | h
      · exact hfs h
      · exact hfw h
  · intro xs h
    unfold sampleStd at h
    split at h
    · exact absurd h (by simp)
    · rename_i hlen
      have hlen2 : 2 ≤ xs.length := by omega
      have hrs : ratSqrt (sampleVar xs) = 0 := by
        injection h with h'
      have hnonneg : 0 ≤ sampleVar xs := by
        unfold sampleVar
        refine div_nonneg (List.sum_nonneg ?_) (by positivity)
        intro b hb
        obtain ⟨y, _, rfl⟩ := List.mem_map.1 hb
        positivity
      have hvar : sampleVar xs = 0 := ratSqrt_eq_zero _ hnonneg hrs
      unfold sampleVar at hvar
      have hden : ((xs.length - 1 : ℕ) : ℚ) ≠ 0 := by
        refine Nat.cast_ne_zero.2 ?_
        omega
      have hsum : (xs.map (fun x => (x - listMean xs) ^ 2)).sum = 0 := by
        rcases div_eq_zero_iff.1 hvar with h' | h'
        · exact h'
        · exact absurd h' hden
      have hall := sum_sq_zero_all_eq xs (listMean xs) hsum
      exact ⟨hlen2, fun x hx y hy => by rw [hall x hx, hall y hy]⟩

/-- Witness for C10: a one-pair cross-section with a normalized single
component: the component score and the final score are both NaN. -/
theorem C10_single_pair_nan_witness :
    calculate_component_score
        ⟨["1d_ROI"], [⟨"ONLY", [("1d_ROI", some 5)]⟩]⟩
        ⟨["1d_ROI"], [1], true⟩ = Except.ok [none]
    ∧ finalScores ⟨[("c", ⟨["1d_ROI"], [1], true⟩)], ⟨["c"], [1]⟩⟩
        ⟨["1d_ROI"], [⟨"ONLY", [("1d_ROI", some 5)]⟩]⟩ = [none] := by
  have h := C10_single_pair_nan
    ⟨["1d_ROI"], [⟨"ONLY", [("1d_ROI", some 5)]⟩]⟩
    ⟨"ONLY", [("1d_ROI", some 5)]⟩
    ⟨[("c", ⟨["1d_ROI"], [1], true⟩)], ⟨["c"], [1]⟩⟩
    rfl
    (by
      intro p hp
      rw [List.mem_singleton] at hp
      subst hp
      refine ⟨rfl, by simp, by simp, ?_⟩
      intro c hc
      rw [List.mem_singleton] at hc
      subst hc
      simp)
    (by simp) (by simp)
    (by
      intro name hn
      rw [List.mem_singleton] at hn
      subst hn
      exact ⟨⟨["1d_ROI"], [1], true⟩, List.mem_singleton_self _⟩)
  exact ⟨h.2.2.1 ("c", ⟨["1d_ROI"], [1], true⟩) (List.mem_singleton_self _),
    h.2.2.2.1⟩
